import Mathlib

/-!
Verification development for the `obsidian` repository (BIP32 hierarchical
deterministic keys, `deterministic.py`; BIP39 mnemonics, `mnemonic.py`).

Shallow embedding conventions:
* Python `bytes` values are `List Nat` with elements below 256.
* The external collaborators declared out of scope by the design document
  (SHA-256, HMAC-SHA512, RIPEMD-160, the base-58 check codec, and the
  elliptic-curve point arithmetic of `ecc.py`) are parameters of the
  embedded operations.  The secp256k1 group is cyclic of prime order `N`
  generated by `G`, so it is modelled by the additive group `ZMod secpN`,
  with `G * k` becoming the natural cast of `k` and point addition
  becoming addition; the compressed point encoding and its inverse are
  abstract function parameters.
* Python exceptions are modelled as `Option`/`Except`/dedicated result
  constructors, as noted on each definition.
-/

/-- Big-endian digit expansion: `digitsBE B w x` is the list of the `w`
low-order base-`B` digits of `x`, most significant first.  `digitsBE 256 w x`
models Python `x.to_bytes(w, 'big')` (for `x < 256^w`) and `digitsBE 2 w x`
the `w`-bit binary expansion used by the bit-regrouping utility. -/
def digitsBE (B : Nat) : Nat → Nat → List Nat
  | 0, _ => []
  | w + 1, x => x / B ^ w % B :: digitsBE B w x

/-- Big-endian digit evaluation: `valBE B l` folds a most-significant-first
digit list back into a number.  `valBE 256` models Python
`int.from_bytes(l, 'big')`. -/
def valBE (B : Nat) (l : List Nat) : Nat := l.foldl (fun a d => B * a + d) 0

/-- Auxiliary fuelled chunker: split a list into consecutive groups of `k`
elements, zero-padding the final partial group on the right. -/
def chunkPadAux (k : Nat) : Nat → List Nat → List (List Nat)
  | _, [] => []
  | 0, _ :: _ => []
  | fuel + 1, a :: l =>
      ((a :: l).take k ++ List.replicate (k - (a :: l).length) 0) ::
        chunkPadAux k fuel ((a :: l).drop k)

/-- Split a list into consecutive groups of `k` elements (zero-padding the
final partial group on the right). -/
def chunkPad (k : Nat) (l : List Nat) : List (List Nat) := chunkPadAux k l.length l

/-- Modelled from the spec: the bit-regrouping utility `convertbits` of
`util.py` (imported by `mnemonic.py` but not part of the given sources).
Per the design document it repacks a sequence of `fromBits`-wide unsigned
integers, MSB-first across the whole sequence, into `toBits`-wide groups,
padding a trailing partial group.  Every call site in `mnemonic.py` uses
fixed nonzero widths and bitstreams whose length is an exact multiple of the
target width, so the `InvalidBitWidth` failure mode (width 0) and the padding
policy are never exercised by the claims. -/
def convertbits (data : List Nat) (fromBits toBits : Nat) : List Nat :=
  (chunkPad toBits (data.flatMap (digitsBE 2 fromBits))).map (valBE 2)

/-- Evaluate an Option-valued function over a list and collect the results;
models a Python list comprehension or generator whose body may raise (a
raise anywhere gives `none`). -/
def mapOrNone {α β : Type} (f : α → Option β) : List α → Option (List β)
  | [] => some []
  | a :: l =>
    match f a, mapOrNone f l with
    | some b, some bs => some (b :: bs)
    | _, _ => none

/-- Model of Python `wl.index(w)`: the first index of `w` in `wl`, or `none`
for the `ValueError` raised when `w` is absent. -/
def indexOfOpt {W : Type} [DecidableEq W] (wl : List W) (w : W) : Option Nat :=
  match wl with
  | [] => none
  | a :: t => if a = w then some 0 else (indexOfOpt t w).map (· + 1)

/-- The 11-bit word indices computed by `Mnemonic.from_entropy`
(`mnemonic.py` lines 87-95): entropy bits followed by the first `ENT/32`
bits of the SHA-256 hash of the entropy, regrouped into 11-bit values.  The
SHA-256 collaborator is the parameter `sha256`. -/
def mnemonicIndices (sha256 : List Nat → List Nat) (ent : List Nat) : List Nat :=
  let ENT := ent.length * 8
  let chk := (convertbits (sha256 ent) 8 1).take (ENT / 32)
  let entbits := convertbits ent 8 1
  convertbits (entbits ++ chk) 1 11

/-- The concatenated bitstream behind `mnemonicIndices`: entropy bits
followed by the first `ENT/32` checksum bits (a proof-layer abbreviation;
`mnemonicIndices_eq_chunks` relates it to the definition above). -/
def mnemonicBits (sha256 : List Nat → List Nat) (ent : List Nat) : List Nat :=
  ent.flatMap (digitsBE 2 8) ++
    ((sha256 ent).flatMap (digitsBE 2 8)).take (ent.length * 8 / 32)

/-- Model of `Mnemonic.from_entropy` (`mnemonic.py` lines 80-96): check the
entropy length (the failed `assert` is `none`), compute the 11-bit indices
and look each up in the word list `wl` (an out-of-range index, impossible
for a full 2048-word list, would raise `IndexError`, i.e. `none`). -/
def Mnemonic.from_entropy {W : Type} (sha256 : List Nat → List Nat)
    (wl : List W) (ent : List Nat) : Option (List W) :=
  if ent.length % 4 = 0 ∧ 16 ≤ ent.length ∧ ent.length ≤ 32 then
    mapOrNone (fun x => wl[x]?) (mnemonicIndices sha256 ent)
  else none

/-- Model of `Mnemonic.check` (`mnemonic.py` lines 98-111): `some false` when
the word count is not a multiple of 3, `none` for the `ValueError` raised by
`wl.index` on a word absent from the list, and otherwise `some` of the
checksum comparison. -/
def Mnemonic.check {W : Type} [DecidableEq W] (sha256 : List Nat → List Nat)
    (wl : List W) (m : List W) : Option Bool :=
  if m.length % 3 ≠ 0 then some false
  else
    match mapOrNone (fun w => indexOfOpt wl w) m with
    | none => none
    | some l =>
      let fullbits := convertbits l 11 1
      let ENT := 32 * fullbits.length / 33
      let plbits := fullbits.take ENT
      let csbits := fullbits.drop ENT
      let plbytes := convertbits plbits 1 8
      some (decide ((convertbits (sha256 plbytes) 8 1).take csbits.length = csbits))

/-- Model of the direct-construction branch of `Mnemonic.__new__`
(`mnemonic.py` lines 46-58): with a tuple (or other iterable) argument the
words are taken exactly as given, with no validation at all (the
no-argument and integer-argument branches instead draw random entropy and
delegate to `from_entropy`). -/
def Mnemonic.ofWords {W : Type} (words : List W) : List W := words

/-- The invariant claimed for every Mnemonic value: an ordered word sequence
whose length is a positive multiple of 3, each word drawn from the word
list `wl`. -/
def MnemonicInvariant {W : Type} (wl : List W) (m : List W) : Prop :=
  0 < m.length ∧ m.length % 3 = 0 ∧ ∀ w ∈ m, w ∈ wl

/-- Order of the secp256k1 group (the constant `N` imported from `ecc`). -/
def secpN : Nat :=
  0xFFFFFFFFFFFFFFFFFFFFFFFFFFFFFFFEBAAEDCE6AF48A03BBFD25E8CD0364141

/-- The secp256k1 group is cyclic of prime order `secpN` generated by the
base point `G`, so it is modelled by the additive group `ZMod secpN`:
`G * k` becomes the natural cast of `k` and point addition becomes
addition.  The compressed 33-byte point codec (`bytes(K)` and
`Point.from_bytes`) remains an abstract collaborator parameter. -/
abbrev Pt : Type := ZMod secpN

/-- Python slice endpoint resolution: clamp a possibly negative endpoint of
a sequence of length `n` into the range `[0, n]`, as Python slicing does. -/
def sliceIdx (n : Nat) (i : Int) : Nat :=
  if i < 0 then n - (-i).toNat else min i.toNat n

/-- Python slice `l[lo:hi]` with possibly negative endpoints. -/
def pySlice {α : Type} (l : List α) (lo hi : Int) : List α :=
  (l.take (sliceIdx l.length hi)).drop (sliceIdx l.length lo)

/-- Python slice `l[lo:]` with a possibly negative start. -/
def pySliceFrom {α : Type} (l : List α) (lo : Int) : List α :=
  l.drop (sliceIdx l.length lo)

/-- Key bytes of an extended private key (`XPrivKey.keydat`,
`deterministic.py` line 119): a zero byte followed by the 32 big-endian
bytes of the scalar. -/
def XPrivKey.keydat (k : Nat) : List Nat := 0 :: digitsBE 256 32 k

/-- Model of `XPrivKey.ckd` (`deterministic.py` lines 93-98): the derivation
data is the private key bytes (hardened index) or the compressed public
point (normal index), HMAC-SHA512 (`hm`) is keyed with the chain code, and
the child scalar is `(IL + k) mod N` with chain code `IR = I[-32:]`.  The
source performs no range check on `IL` and no zero check on the child
scalar: the function is total and always returns a pair. -/
def XPrivKey.ckd (hm : List Nat → List Nat → List Nat) (pb : Pt → List Nat)
    (k : Nat) (c : List Nat) (i : Nat) : Nat × List Nat :=
  let plbe := if 0x80000000 ≤ i then XPrivKey.keydat k else pb (k : Pt)
  let I := hm c (plbe ++ digitsBE 256 4 i)
  ((valBE 256 (I.take 32) + k) % secpN, pySliceFrom I (-32))

/-- The HMAC-SHA512 output `I` computed inside `XPrivKey.ckd` (a
proof-layer abbreviation: its left half `I[:32]` is `IL`, its right half
`I[-32:]` is `IR`). -/
def XPrivKey.ckdI (hm : List Nat → List Nat → List Nat) (pb : Pt → List Nat)
    (k : Nat) (c : List Nat) (i : Nat) : List Nat :=
  hm c ((if 0x80000000 ≤ i then XPrivKey.keydat k else pb (k : Pt)) ++
    digitsBE 256 4 i)

/-- Typed failure of public child derivation: the `assert i < 0x80000000`
on line 59 of `deterministic.py` (`HardenedDerivationFromPublicKey` in the
design document's error vocabulary). -/
inductive DerivError where
  | hardenedDerivationFromPublicKey
deriving DecidableEq

/-- Model of `XPubKey.ckd` (`deterministic.py` lines 57-64): hardened
indices fail on the `assert`; otherwise the child point is `IL·G + K` with
chain code `IR = I[-32:]`. -/
def XPubKey.ckd (hm : List Nat → List Nat → List Nat) (pb : Pt → List Nat)
    (K : Pt) (c : List Nat) (i : Nat) : Except DerivError (Pt × List Nat) :=
  if 0x80000000 ≤ i then .error .hardenedDerivationFromPublicKey
  else
    let I := hm c (pb K ++ digitsBE 256 4 i)
    .ok (((valBE 256 (I.take 32) : Nat) : Pt) + K, pySliceFrom I (-32))

/-- Model of `PubBIP32Node`: a public point with chain code, depth, parent
fingerprint and child index (`deterministic.py` lines 121-129). -/
structure PubNode where
  K : Pt
  c : List Nat
  depth : Nat
  parent_fingerprint : List Nat
  index : Nat
deriving DecidableEq

/-- Model of `PrivBIP32Node`: a private scalar with chain code, depth,
parent fingerprint and child index (`deterministic.py` lines 154-165,
with the metadata fields of `PubBIP32Node.__init__`). -/
structure PrivNode where
  k : Nat
  c : List Nat
  depth : Nat
  parent_fingerprint : List Nat
  index : Nat
deriving DecidableEq

/-- Model of `PubBIP32Node.ckd` (`deterministic.py` lines 147-152) on a
public node: the inner `XPubKey.ckd` result plus depth `+1`, parent
fingerprint `hash160(bytes(K))[:4]` and the child index.  `h160` is the
external `hash160` collaborator (RIPEMD-160 after SHA-256). -/
def PubNode.ckd (hm : List Nat → List Nat → List Nat) (pb : Pt → List Nat)
    (h160 : List Nat → List Nat) (n : PubNode) (i : Nat) :
    Except DerivError PubNode :=
  match XPubKey.ckd hm pb n.K n.c i with
  | .error e => .error e
  | .ok r => .ok ⟨r.1, r.2, n.depth + 1, (h160 (pb n.K)).take 4, i⟩

/-- Model of `PubBIP32Node.ckd` as inherited by `PrivBIP32Node`: by the
method resolution order the inner derivation is `XPrivKey.ckd`, the key
data is the child scalar, and the fingerprint uses the node's public point
`G * k`. -/
def PrivNode.ckd (hm : List Nat → List Nat → List Nat) (pb : Pt → List Nat)
    (h160 : List Nat → List Nat) (n : PrivNode) (i : Nat) : PrivNode :=
  let r := XPrivKey.ckd hm pb n.k n.c i
  ⟨r.1, r.2, n.depth + 1, (h160 (pb (n.k : Pt))).take 4, i⟩

/-- Model of `PrivBIP32Node.to_pub` (`deterministic.py` lines 158-161):
replace the scalar by the public point `G * k`, all other fields copied. -/
def PrivNode.to_pub (n : PrivNode) : PubNode :=
  ⟨(n.k : Pt), n.c, n.depth, n.parent_fingerprint, n.index⟩

/-- The fixed HMAC key `b"Bitcoin seed"` of master key generation. -/
def bitcoinSeedKey : List Nat :=
  [0x42, 0x69, 0x74, 0x63, 0x6F, 0x69, 0x6E, 0x20, 0x73, 0x65, 0x65, 0x64]

/-- Model of `XPrivKey.from_entropy` invoked as
`PrivBIP32Node.from_entropy` (`deterministic.py` lines 85-91, metadata
defaults from `PubBIP32Node.__init__` lines 125-129): master key generation
from seed bytes; the failed `assert` (`InvalidSeed`) is `none`. -/
def PrivNode.from_entropy (hm : List Nat → List Nat → List Nat)
    (seed : List Nat) : Option PrivNode :=
  let I := hm bitcoinSeedKey seed
  let k := valBE 256 (I.take 32)
  if k ≠ 0 ∧ k < secpN then some ⟨k, I.drop 32, 0, List.replicate 4 0, 0⟩
  else none

/-- Version bytes of a serialized private node (`PrivBIP32Node.vbytes`). -/
def privVbytes : List Nat := [0x04, 0x88, 0xAD, 0xE4]

/-- Version bytes of a serialized public node (`PubBIP32Node.vbytes`). -/
def pubVbytes : List Nat := [0x04, 0x88, 0xB2, 0x1E]

/-- Model of `PubBIP32Node.__bytes__` (`deterministic.py` lines 131-139)
for a private node: version, depth, parent fingerprint, child index, chain
code and key data. -/
def PrivNode.toBytes (n : PrivNode) : List Nat :=
  privVbytes ++ digitsBE 256 1 n.depth ++ n.parent_fingerprint ++
    digitsBE 256 4 n.index ++ n.c ++ XPrivKey.keydat n.k

/-- Model of `PubBIP32Node.__bytes__` for a public node, whose key data is
the compressed point encoding `pb n.K`. -/
def PubNode.toBytes (pb : Pt → List Nat) (n : PubNode) : List Nat :=
  pubVbytes ++ digitsBE 256 1 n.depth ++ n.parent_fingerprint ++
    digitsBE 256 4 n.index ++ n.c ++ pb n.K

/-- Result of `node_from_str`: a node of either kind, the implicit `None`
Python returns when no version prefix matches, or a raised exception
(tagged with the Python exception's name). -/
inductive ParseResult where
  | privNode : PrivNode → ParseResult
  | pubNode : PubNode → ParseResult
  | noneReturned : ParseResult
  | raised : String → ParseResult
deriving DecidableEq

/-- Model of `node_from_str` (`deterministic.py` lines 12-23) after the
external base-58-check decode (`b58dec(s, True)`, which itself validates
and strips the trailing checksum): field extraction by Python slicing and
dispatch on the 4-byte version prefix.  `pfb` is the external
`Point.from_bytes`; its failure on a malformed encoding is a raised
exception.  Note the source has no length check: `b[4]` raises
`IndexError` for inputs shorter than 5 bytes and every slice silently
clamps, and when neither version prefix matches the function falls through
and returns `None`. -/
def node_from_bytes (pfb : List Nat → Option Pt) (b : List Nat) : ParseResult :=
  let c := pySlice b (-65) (-33)
  let Kbytes := pySliceFrom b (-33)
  if b.length < 5 then .raised "IndexError"
  else
    let depth := b.getD 4 0
    let fingerp := pySlice b 5 9
    let index := valBE 256 (pySlice b 9 13)
    if b.take 4 = privVbytes then
      if Kbytes.getD 0 1 ≠ 0 then .raised "AssertionError"
      else .privNode ⟨valBE 256 Kbytes, c, depth, fingerp, index⟩
    else if b.take 4 = pubVbytes then
      match pfb Kbytes with
      | some K => .pubNode ⟨K, c, depth, fingerp, index⟩
      | none => .raised "PointDecodeError"
    else .noneReturned

/-- Concrete stand-in for the SHA-256 collaborator, used by witness
instantiations (the claims hold for every collaborator). -/
def shaZero : List Nat → List Nat := fun _ => List.replicate 32 0

/-- Concrete stand-in for the HMAC-SHA512 collaborator. -/
def hmacOnes : List Nat → List Nat → List Nat := fun _ _ => List.replicate 64 1

/-- Concrete HMAC-SHA512 stand-in returning 64 `0xFF` bytes, whose left
half reads back as `2^256 - 1 ≥ N`. -/
def hmacFF : List Nat → List Nat → List Nat := fun _ _ => List.replicate 64 255

/-- Concrete stand-in for the compressed-point encoder. -/
def pbConst : Pt → List Nat := fun _ => List.replicate 33 9

/-- Concrete stand-in for the `hash160` collaborator. -/
def h160Const : List Nat → List Nat := fun _ => List.replicate 20 7

/-- Concrete always-failing stand-in for `Point.from_bytes`. -/
def pfbNone : List Nat → Option Pt := fun _ => none

/-- Concrete stand-in for `Point.from_bytes` decoding everything to the
point `5·G`. -/
def pfbConst : List Nat → Option Pt := fun _ => some (5 : Pt)

/-- A 2048-entry word list over `W = Nat`, used by witness instantiations. -/
def wl2048 : List Nat := List.range 2048

/-- A 42-byte input carrying the private version prefix: `node_from_str`
parses it into a node because the source never validates the 78-byte
length. -/
def bytes42 : List Nat :=
  [0x04, 0x88, 0xAD, 0xE4, 7, 1, 2, 3, 4, 0, 0, 0, 9] ++ List.replicate 29 0

theorem valBE_nil (B : Nat) : valBE B [] = 0 := rfl

theorem valBE_foldl (B : Nat) (l : List Nat) (a : Nat) :
    List.foldl (fun a d => B * a + d) a l = a * B ^ l.length + valBE B l := by
  induction l generalizing a with
  | nil => simp [valBE]
  | cons d l ih =>
    simp only [List.foldl_cons, List.length_cons]
    rw [ih (B * a + d)]
    have hv : valBE B (d :: l) = d * B ^ l.length + valBE B l := by
      simpa [valBE] using ih d
    rw [hv]
    ring

theorem valBE_cons (B d : Nat) (l : List Nat) :
    valBE B (d :: l) = d * B ^ l.length + valBE B l := by
  have h := valBE_foldl B l d
  simpa [valBE] using h

theorem valBE_lt (B : Nat) (l : List Nat) (h : ∀ d ∈ l, d < B) :
    valBE B l < B ^ l.length := by
  induction l with
  | nil => simp [valBE]
  | cons d l ih =>
    rw [valBE_cons]
    have hd : d < B := h d (by simp)
    have hl : valBE B l < B ^ l.length := ih (fun x hx => h x (by simp [hx]))
    have h1 : d * B ^ l.length + valBE B l < (d + 1) * B ^ l.length := by
      have hx : (d + 1) * B ^ l.length = d * B ^ l.length + B ^ l.length := by ring
      omega
    have h2 : (d + 1) * B ^ l.length ≤ B * B ^ l.length :=
      Nat.mul_le_mul_right _ hd
    calc d * B ^ l.length + valBE B l < (d + 1) * B ^ l.length := h1
      _ ≤ B * B ^ l.length := h2
      _ = B ^ (d :: l).length := by rw [List.length_cons]; ring

theorem digitsBE_length (B w x : Nat) : (digitsBE B w x).length = w := by
  induction w generalizing x with
  | zero => rfl
  | succ w ih => simp [digitsBE, ih]

theorem digitsBE_lt (B w x : Nat) (hB : 0 < B) : ∀ d ∈ digitsBE B w x, d < B := by
  induction w generalizing x with
  | zero => simp [digitsBE]
  | succ w ih =>
    intro d hd
    rcases List.mem_cons.mp hd with h | h
    · subst h; exact Nat.mod_lt _ hB
    · exact ih x d h

theorem digitsBE_mod (B w x : Nat) (hB : 0 < B) :
    digitsBE B w (x % B ^ w) = digitsBE B w x := by
  induction w generalizing x with
  | zero => rfl
  | succ w ih =>
    have hpow : 0 < B ^ w := Nat.pos_pow_of_pos w hB
    have hsplit : x % B ^ (w + 1) = x % B ^ w + B ^ w * (x / B ^ w % B) := by
      rw [pow_succ]
      exact Nat.mod_mul
    simp only [digitsBE]
    congr 1
    · rw [hsplit]
      rw [Nat.add_mul_div_left _ _ hpow, Nat.div_eq_of_lt (Nat.mod_lt _ hpow),
        Nat.zero_add, Nat.mod_mod_of_dvd _ dvd_rfl]
    · have h1 : digitsBE B w (x % B ^ (w + 1)) =
          digitsBE B w (x % B ^ (w + 1) % B ^ w) := (ih _).symm
      have h2 : x % B ^ (w + 1) % B ^ w = x % B ^ w := by
        apply Nat.mod_mod_of_dvd
        exact pow_dvd_pow B (Nat.le_succ w)
      rw [h1, h2, ih]

theorem valBE_digitsBE (B w x : Nat) (hB : 0 < B) :
    valBE B (digitsBE B w x) = x % B ^ w := by
  induction w generalizing x with
  | zero => simp [digitsBE, valBE, Nat.mod_one]
  | succ w ih =>
    simp only [digitsBE]
    rw [valBE_cons, digitsBE_length, ih]
    have h : x % B ^ (w + 1) = x % B ^ w + B ^ w * (x / B ^ w % B) := by
      rw [pow_succ]; exact Nat.mod_mul
    rw [h]; ring

theorem digitsBE_valBE (B : Nat) (l : List Nat) (hB : 0 < B)
    (h : ∀ d ∈ l, d < B) : digitsBE B l.length (valBE B l) = l := by
  induction l with
  | nil => rfl
  | cons d l ih =>
    have hd : d < B := h d (by simp)
    have hl : ∀ x ∈ l, x < B := fun x hx => h x (by simp [hx])
    have hvl : valBE B l < B ^ l.length := valBE_lt B l hl
    have hpow : 0 < B ^ l.length := Nat.pos_pow_of_pos _ hB
    simp only [List.length_cons, digitsBE]
    congr 1
    · rw [valBE_cons, Nat.mul_comm d (B ^ l.length)]
      rw [Nat.mul_add_div hpow, Nat.div_eq_of_lt hvl, Nat.add_zero,
        Nat.mod_eq_of_lt hd]
    · rw [← digitsBE_mod B l.length _ hB, valBE_cons]
      have hmod : (d * B ^ l.length + valBE B l) % B ^ l.length = valBE B l := by
        rw [Nat.mul_comm, Nat.mul_add_mod, Nat.mod_eq_of_lt hvl]
      rw [hmod, ih hl]

theorem chunkPadAux_nil (k fuel : Nat) : chunkPadAux k fuel [] = [] := by
  cases fuel <;> rfl

theorem chunkPadAux_congr (k : Nat) (hk : 0 < k) :
    ∀ fuel fuel' (l : List Nat), l.length ≤ fuel → l.length ≤ fuel' →
      chunkPadAux k fuel l = chunkPadAux k fuel' l := by
  intro fuel
  induction fuel with
  | zero =>
    intro fuel' l hl _
    have : l = [] := List.eq_nil_of_length_eq_zero (Nat.le_zero.mp hl)
    subst this
    rw [chunkPadAux_nil, chunkPadAux_nil]
  | succ f ih =>
    intro fuel' l hl hl'
    cases l with
    | nil => rw [chunkPadAux_nil, chunkPadAux_nil]
    | cons a t =>
      cases fuel' with
      | zero => simp at hl'
      | succ f' =>
        simp only [chunkPadAux]
        congr 1
        apply ih f'
        · rw [List.length_drop]
          simp only [List.length_cons] at hl ⊢
          omega
        · rw [List.length_drop]
          simp only [List.length_cons] at hl' ⊢
          omega

theorem chunkPad_cons (k : Nat) (hk : 0 < k) (l : List Nat) (hl : l ≠ []) :
    chunkPad k l =
      (l.take k ++ List.replicate (k - l.length) 0) :: chunkPad k (l.drop k) := by
  obtain ⟨a, t, rfl⟩ : ∃ a t, l = a :: t := by
    cases l with
    | nil => exact absurd rfl hl
    | cons a t => exact ⟨a, t, rfl⟩
  show chunkPadAux k (t.length + 1) (a :: t) = _
  simp only [chunkPadAux]
  congr 1
  unfold chunkPad
  apply chunkPadAux_congr k hk
  · simp only [List.length_drop, List.length_cons]
    omega
  · exact Nat.le_refl _

theorem chunkPad_length (k : Nat) (hk : 0 < k) :
    ∀ (n : Nat) (l : List Nat), l.length = k * n → (chunkPad k l).length = n := by
  intro n
  induction n with
  | zero =>
    intro l hlen
    have : l = [] := List.eq_nil_of_length_eq_zero (by omega)
    subst this
    rfl
  | succ m ih =>
    intro l hlen
    have hne : l ≠ [] := by
      apply List.ne_nil_of_length_pos
      have : 0 < k * (m + 1) := Nat.mul_pos hk (Nat.succ_pos m)
      omega
    rw [chunkPad_cons k hk l hne]
    rw [List.length_cons, ih (l.drop k) (by simp [List.length_drop, hlen]; ring_nf; omega)]

theorem chunkPad_roundtrip_bits (k : Nat) (hk : 0 < k) :
    ∀ (n : Nat) (l : List Nat), l.length = k * n → (∀ b ∈ l, b < 2) →
      ((chunkPad k l).map (valBE 2)).flatMap (digitsBE 2 k) = l := by
  intro n
  induction n with
  | zero =>
    intro l hlen _
    have : l = [] := List.eq_nil_of_length_eq_zero (by omega)
    subst this
    rfl
  | succ m ih =>
    intro l hlen hbits
    have hkle : k ≤ l.length := by
      rw [hlen]
      calc k = k * 1 := (Nat.mul_one k).symm
        _ ≤ k * (m + 1) := Nat.mul_le_mul_left k (by omega)
    have hne : l ≠ [] := List.ne_nil_of_length_pos (by omega)
    rw [chunkPad_cons k hk l hne]
    have hpad : k - l.length = 0 := by omega
    rw [hpad, List.replicate_zero, List.append_nil]
    rw [List.map_cons, List.flatMap_cons]
    have htk : (l.take k).length = k := by
      rw [List.length_take]
      omega
    have hbk : ∀ b ∈ l.take k, b < 2 := fun b hb => hbits b (List.mem_of_mem_take hb)
    have hhead : digitsBE 2 k (valBE 2 (l.take k)) = l.take k := by
      have h := digitsBE_valBE 2 (l.take k) (by omega) hbk
      rwa [htk] at h
    rw [hhead]
    have htail : ((chunkPad k (l.drop k)).map (valBE 2)).flatMap (digitsBE 2 k) = l.drop k := by
      apply ih
      · rw [List.length_drop, hlen]
        ring_nf
        omega
      · exact fun b hb => hbits b (List.mem_of_mem_drop hb)
    rw [htail, List.take_append_drop]

theorem chunkPad_flatMap_digitsBE (k : Nat) (hk : 0 < k) (data : List Nat)
    (hd : ∀ b ∈ data, b < 2 ^ k) :
    (chunkPad k (data.flatMap (digitsBE 2 k))).map (valBE 2) = data := by
  induction data with
  | nil => rfl
  | cons b data ih =>
    rw [List.flatMap_cons]
    have hlenb : (digitsBE 2 k b).length = k := digitsBE_length 2 k b
    have hne : digitsBE 2 k b ++ data.flatMap (digitsBE 2 k) ≠ [] := by
      apply List.ne_nil_of_length_pos
      rw [List.length_append, hlenb]
      omega
    rw [chunkPad_cons k hk _ hne]
    have htake : (digitsBE 2 k b ++ data.flatMap (digitsBE 2 k)).take k = digitsBE 2 k b :=
      List.take_left' hlenb
    have hdrop : (digitsBE 2 k b ++ data.flatMap (digitsBE 2 k)).drop k =
        data.flatMap (digitsBE 2 k) := List.drop_left' hlenb
    have hpad : k - (digitsBE 2 k b ++ data.flatMap (digitsBE 2 k)).length = 0 := by
      rw [List.length_append, hlenb]
      omega
    rw [htake, hdrop, hpad, List.replicate_zero, List.append_nil, List.map_cons]
    rw [valBE_digitsBE 2 k b (by omega), Nat.mod_eq_of_lt (hd b (by simp))]
    rw [ih (fun x hx => hd x (by simp [hx]))]

theorem chunkPadAux_chunk_spec (k : Nat) (hk : 0 < k) :
    ∀ fuel (l : List Nat), l.length ≤ fuel → (∀ b ∈ l, b < 2) →
      ∀ c ∈ chunkPadAux k fuel l, c.length = k ∧ ∀ x ∈ c, x < 2 := by
  intro fuel
  induction fuel with
  | zero =>
    intro l hl _
    have : l = [] := List.eq_nil_of_length_eq_zero (Nat.le_zero.mp hl)
    subst this
    simp [chunkPadAux_nil]
  | succ f ih =>
    intro l hl hbits c hc
    cases l with
    | nil => simp [chunkPadAux_nil] at hc
    | cons a t =>
      simp only [chunkPadAux, List.mem_cons] at hc
      rcases hc with hc | hc
      · subst hc
        constructor
        · rw [List.length_append, List.length_take, List.length_replicate]
          simp only [List.length_cons]
          omega
        · intro x hx
          rcases List.mem_append.mp hx with hx | hx
          · exact hbits x (List.mem_of_mem_take hx)
          · rw [List.eq_of_mem_replicate hx]
            omega
      · apply ih ((a :: t).drop k) _ _ c hc
        · simp only [List.length_drop, List.length_cons] at *
          omega
        · exact fun b hb => hbits b (List.mem_of_mem_drop hb)

theorem chunkPad_val_lt (k : Nat) (hk : 0 < k) (l : List Nat) (hbits : ∀ b ∈ l, b < 2) :
    ∀ v ∈ (chunkPad k l).map (valBE 2), v < 2 ^ k := by
  intro v hv
  rcases List.mem_map.mp hv with ⟨c, hc, rfl⟩
  obtain ⟨hclen, hcbits⟩ :=
    chunkPadAux_chunk_spec k hk l.length l (Nat.le_refl _) hbits c hc
  calc valBE 2 c < 2 ^ c.length := valBE_lt 2 c hcbits
    _ = 2 ^ k := by rw [hclen]

theorem chunkPad_one_map (l : List Nat) : (chunkPad 1 l).map (valBE 2) = l := by
  induction l with
  | nil => rfl
  | cons a t ih =>
    rw [chunkPad_cons 1 (by omega) _ (by simp)]
    simp only [List.length_cons, List.take_succ_cons, List.take_zero,
      List.drop_succ_cons, List.drop_zero, List.map_cons]
    have h1 : 1 - (t.length + 1) = 0 := by omega
    rw [h1, List.replicate_zero, List.append_nil, ih]
    have : valBE 2 [a] = a := by simp [valBE]
    rw [this]

theorem convertbits_to_one (data : List Nat) (f : Nat) :
    convertbits data f 1 = data.flatMap (digitsBE 2 f) := by
  unfold convertbits
  exact chunkPad_one_map _

theorem flatMap_digitsBE_one (l : List Nat) (h : ∀ b ∈ l, b < 2) :
    l.flatMap (digitsBE 2 1) = l := by
  induction l with
  | nil => rfl
  | cons a t ih =>
    rw [List.flatMap_cons, ih (fun b hb => h b (by simp [hb]))]
    have ha : a < 2 := h a (by simp)
    show (a / 2 ^ 0 % 2 :: []) ++ t = a :: t
    simp [Nat.mod_eq_of_lt ha]

theorem length_flatMap_digitsBE (B k : Nat) (l : List Nat) :
    (l.flatMap (digitsBE B k)).length = k * l.length := by
  induction l with
  | nil => simp
  | cons a t ih =>
    rw [List.flatMap_cons, List.length_append, digitsBE_length, ih,
      List.length_cons]
    ring

theorem flatMap_digitsBE_lt (l : List Nat) (k : Nat) :
    ∀ b ∈ l.flatMap (digitsBE 2 k), b < 2 := by
  intro b hb
  rcases List.mem_flatMap.mp hb with ⟨a, _, hd⟩
  exact digitsBE_lt 2 k a (by omega) b hd

theorem mapOrNone_of_forall₂ {α β : Type} (f : α → Option β) (l : List α) (bs : List β)
    (h : List.Forall₂ (fun a b => f a = some b) l bs) : mapOrNone f l = some bs := by
  induction h with
  | nil => rfl
  | cons hab _ ih =>
    simp only [mapOrNone]
    rw [hab, ih]

theorem forall₂_of_mapOrNone {α β : Type} (f : α → Option β) :
    ∀ (l : List α) (bs : List β), mapOrNone f l = some bs →
      List.Forall₂ (fun a b => f a = some b) l bs := by
  intro l
  induction l with
  | nil =>
    intro bs h
    simp only [mapOrNone, Option.some_inj] at h
    subst h
    exact List.Forall₂.nil
  | cons a t ih =>
    intro bs h
    simp only [mapOrNone] at h
    cases hfa : f a with
    | none => rw [hfa] at h; cases mapOrNone f t <;> simp at h
    | some b =>
      cases hmt : mapOrNone f t with
      | none => rw [hfa, hmt] at h; simp at h
      | some cs =>
        rw [hfa, hmt] at h
        simp only [Option.some_inj] at h
        subst h
        exact List.Forall₂.cons hfa (ih cs hmt)

theorem mapOrNone_isSome {α β : Type} (f : α → Option β) :
    ∀ (l : List α), (∀ a ∈ l, (f a).isSome) → ∃ bs, mapOrNone f l = some bs := by
  intro l
  induction l with
  | nil => exact fun _ => ⟨[], rfl⟩
  | cons a t ih =>
    intro h
    obtain ⟨b, hb⟩ := Option.isSome_iff_exists.mp (h a (by simp))
    obtain ⟨bs, hbs⟩ := ih (fun x hx => h x (by simp [hx]))
    refine ⟨b :: bs, ?_⟩
    simp only [mapOrNone]
    rw [hb, hbs]

theorem indexOfOpt_getElem {W : Type} [DecidableEq W] :
    ∀ (wl : List W), wl.Nodup → ∀ (x : Nat) (w : W), wl[x]? = some w →
      indexOfOpt wl w = some x := by
  intro wl
  induction wl with
  | nil => intro _ x w h; simp at h
  | cons a t ih =>
    intro hnd x w h
    obtain ⟨ha, ht⟩ := List.nodup_cons.mp hnd
    cases x with
    | zero =>
      rw [List.getElem?_cons_zero, Option.some_inj] at h
      subst h
      simp [indexOfOpt]
    | succ x =>
      rw [List.getElem?_cons_succ] at h
      have hw : w ∈ t := List.getElem?_mem h
      have hne : ¬(a = w) := fun he => ha (he ▸ hw)
      simp only [indexOfOpt, if_neg hne, ih ht x w h, Option.map_some']

theorem mnemonicBits_bits (sha256 : List Nat → List Nat) (ent : List Nat) :
    ∀ b ∈ mnemonicBits sha256 ent, b < 2 := by
  intro b hb
  rcases List.mem_append.mp hb with h | h
  · exact flatMap_digitsBE_lt ent 8 b h
  · exact flatMap_digitsBE_lt (sha256 ent) 8 b (List.mem_of_mem_take h)

theorem mnemonicBits_length (sha256 : List Nat → List Nat) (ent : List Nat)
    (hsha : (sha256 ent).length = 32) (hle : ent.length ≤ 32) :
    (mnemonicBits sha256 ent).length = ent.length * 8 + ent.length * 8 / 32 := by
  unfold mnemonicBits
  rw [List.length_append, List.length_take, length_flatMap_digitsBE,
    length_flatMap_digitsBE, hsha]
  have h : ent.length * 8 / 32 ≤ 8 * 32 := by omega
  rw [Nat.mul_comm 8 ent.length]
  omega

theorem mnemonicIndices_eq_chunks (sha256 : List Nat → List Nat) (ent : List Nat) :
    mnemonicIndices sha256 ent = (chunkPad 11 (mnemonicBits sha256 ent)).map (valBE 2) := by
  show convertbits (convertbits ent 8 1 ++
      (convertbits (sha256 ent) 8 1).take (ent.length * 8 / 32)) 1 11 = _
  unfold convertbits mnemonicBits
  rw [chunkPad_one_map, chunkPad_one_map]
  congr 2
  apply flatMap_digitsBE_one
  intro b hb
  rcases List.mem_append.mp hb with h | h
  · exact flatMap_digitsBE_lt ent 8 b h
  · exact flatMap_digitsBE_lt (sha256 ent) 8 b (List.mem_of_mem_take h)

theorem mnemonicIndices_spec (sha256 : List Nat → List Nat) (ent : List Nat)
    (hL : ent.length = 16 ∨ ent.length = 20 ∨ ent.length = 24 ∨
      ent.length = 28 ∨ ent.length = 32)
    (hsha : (sha256 ent).length = 32) :
    (mnemonicIndices sha256 ent).length = 3 * ent.length / 4 ∧
      ∀ x ∈ mnemonicIndices sha256 ent, x < 2048 := by
  have hle : ent.length ≤ 32 := by rcases hL with h | h | h | h | h <;> omega
  have hblen := mnemonicBits_length sha256 ent hsha hle
  rw [mnemonicIndices_eq_chunks]
  constructor
  · rw [List.length_map]
    apply chunkPad_length 11 (by omega)
    rw [hblen]
    rcases hL with h | h | h | h | h <;> rw [h]
  · intro x hx
    have h := chunkPad_val_lt 11 (by omega) (mnemonicBits sha256 ent)
      (mnemonicBits_bits sha256 ent) x hx
    calc x < 2 ^ 11 := h
      _ = 2048 := by norm_num

theorem from_entropy_eq_some {W : Type} (sha256 : List Nat → List Nat)
    (wl : List W) (ent : List Nat) (hwl : wl.length = 2048)
    (hL : ent.length = 16 ∨ ent.length = 20 ∨ ent.length = 24 ∨
      ent.length = 28 ∨ ent.length = 32)
    (hsha : (sha256 ent).length = 32) :
    ∃ m, Mnemonic.from_entropy sha256 wl ent = some m ∧
      List.Forall₂ (fun x w => wl[x]? = some w) (mnemonicIndices sha256 ent) m := by
  have hvalid : ent.length % 4 = 0 ∧ 16 ≤ ent.length ∧ ent.length ≤ 32 := by
    rcases hL with h | h | h | h | h <;> rw [h] <;> omega
  obtain ⟨-, hxlt⟩ := mnemonicIndices_spec sha256 ent hL hsha
  have hsome : ∀ x ∈ mnemonicIndices sha256 ent, ((fun x => wl[x]?) x).isSome := by
    intro x hx
    have : x < wl.length := by rw [hwl]; exact hxlt x hx
    show (wl[x]?).isSome = true
    rw [List.getElem?_eq_getElem this]
    rfl
  obtain ⟨m, hm⟩ := mapOrNone_isSome (fun x => wl[x]?) (mnemonicIndices sha256 ent) hsome
  refine ⟨m, ?_, forall₂_of_mapOrNone _ _ _ hm⟩
  unfold Mnemonic.from_entropy
  rw [if_pos hvalid]
  exact hm

theorem check_eq_of_mapOrNone {W : Type} [DecidableEq W]
    (sha256 : List Nat → List Nat) (wl : List W) (m : List W) (l : List Nat)
    (h3 : m.length % 3 = 0)
    (hmap : mapOrNone (fun w => indexOfOpt wl w) m = some l) :
    Mnemonic.check sha256 wl m =
      some (decide
        ((convertbits (sha256 (convertbits
            ((convertbits l 11 1).take (32 * (convertbits l 11 1).length / 33)) 1 8)) 8 1).take
          ((convertbits l 11 1).drop (32 * (convertbits l 11 1).length / 33)).length =
          (convertbits l 11 1).drop (32 * (convertbits l 11 1).length / 33))) := by
  unfold Mnemonic.check
  rw [if_neg (by omega), hmap]

theorem check_of_forall₂ {W : Type} [DecidableEq W]
    (sha256 : List Nat → List Nat) (wl : List W) (ent : List Nat) (m : List W)
    (hnd : wl.Nodup)
    (hL : ent.length = 16 ∨ ent.length = 20 ∨ ent.length = 24 ∨
      ent.length = 28 ∨ ent.length = 32)
    (hby : ∀ b ∈ ent, b < 256) (hsha : (sha256 ent).length = 32)
    (hF : List.Forall₂ (fun x w => wl[x]? = some w) (mnemonicIndices sha256 ent) m) :
    Mnemonic.check sha256 wl m = some true := by
  have hle : ent.length ≤ 32 := by rcases hL with h | h | h | h | h <;> omega
  have hblen := mnemonicBits_length sha256 ent hsha hle
  have hmlen : m.length = (mnemonicIndices sha256 ent).length := hF.length_eq.symm
  obtain ⟨hilen, hxlt⟩ := mnemonicIndices_spec sha256 ent hL hsha
  have hm3 : m.length % 3 = 0 := by
    rw [hmlen, hilen]
    rcases hL with h | h | h | h | h <;> rw [h]
  have hmap : mapOrNone (fun w => indexOfOpt wl w) m =
      some (mnemonicIndices sha256 ent) := by
    apply mapOrNone_of_forall₂
    apply List.Forall₂.flip
    exact hF.imp (fun x w h => indexOfOpt_getElem wl hnd x w h)
  have hfb : convertbits (mnemonicIndices sha256 ent) 11 1 = mnemonicBits sha256 ent := by
    rw [convertbits_to_one, mnemonicIndices_eq_chunks]
    apply chunkPad_roundtrip_bits 11 (by omega) (3 * ent.length / 4)
    · rw [hblen]
      rcases hL with h | h | h | h | h <;> rw [h]
    · exact mnemonicBits_bits sha256 ent
  have hENT : 32 * (mnemonicBits sha256 ent).length / 33 = ent.length * 8 := by
    rw [hblen]
    rcases hL with h | h | h | h | h <;> rw [h]
  have htake : (mnemonicBits sha256 ent).take (ent.length * 8) =
      ent.flatMap (digitsBE 2 8) := by
    unfold mnemonicBits
    exact List.take_left' (by rw [length_flatMap_digitsBE]; ring)
  have hdrop : (mnemonicBits sha256 ent).drop (ent.length * 8) =
      ((sha256 ent).flatMap (digitsBE 2 8)).take (ent.length * 8 / 32) := by
    unfold mnemonicBits
    exact List.drop_left' (by rw [length_flatMap_digitsBE]; ring)
  have hplbytes : convertbits (ent.flatMap (digitsBE 2 8)) 1 8 = ent := by
    unfold convertbits
    rw [flatMap_digitsBE_one _ (flatMap_digitsBE_lt ent 8)]
    apply chunkPad_flatMap_digitsBE 8 (by omega) ent
    intro b hb
    have h := hby b hb
    norm_num
    omega
  have hcslen : (((sha256 ent).flatMap (digitsBE 2 8)).take (ent.length * 8 / 32)).length =
      ent.length * 8 / 32 := by
    rw [List.length_take, length_flatMap_digitsBE, hsha]
    omega
  rw [check_eq_of_mapOrNone sha256 wl m (mnemonicIndices sha256 ent) hm3 hmap]
  rw [hfb, hENT, htake, hplbytes, hdrop, hcslen, convertbits_to_one]
  rw [decide_eq_true rfl]

theorem mem_of_forall₂_getElem {W : Type} (wl : List W) (l : List Nat) (m : List W)
    (h : List.Forall₂ (fun x w => wl[x]? = some w) l m) : ∀ w ∈ m, w ∈ wl := by
  induction h with
  | nil => simp
  | cons hab _ ih =>
    intro w hw
    rcases List.mem_cons.mp hw with hw | hw
    · subst hw
      exact List.getElem?_mem hab
    · exact ih w hw

/-- C1: for every entropy byte string of a supported length (16, 20, 24, 28
or 32 bytes), encoding it with `Mnemonic.from_entropy` and then verifying
the resulting mnemonic with `Mnemonic.check` over the same duplicate-free
2048-entry word list returns `True`; this holds for every SHA-256
collaborator producing 32-byte digests. -/
theorem claim_C1 {W : Type} [DecidableEq W] (sha256 : List Nat → List Nat)
    (wl : List W) (ent : List Nat) (hnd : wl.Nodup) (hwl : wl.length = 2048)
    (hL : ent.length = 16 ∨ ent.length = 20 ∨ ent.length = 24 ∨
      ent.length = 28 ∨ ent.length = 32)
    (hby : ∀ b ∈ ent, b < 256) (hsha : (sha256 ent).length = 32) :
    ∃ m, Mnemonic.from_entropy sha256 wl ent = some m ∧
      Mnemonic.check sha256 wl m = some true := by
  obtain ⟨m, hm, hF⟩ := from_entropy_eq_some sha256 wl ent hwl hL hsha
  exact ⟨m, hm, check_of_forall₂ sha256 wl ent m hnd hL hby hsha hF⟩

theorem claim_C1_witness :
    (wl2048.Nodup ∧ wl2048.length = 2048 ∧
      (List.replicate 16 (0 : Nat)).length = 16 ∧
      (∀ b ∈ List.replicate 16 (0 : Nat), b < 256) ∧
      (shaZero (List.replicate 16 0)).length = 32) ∧
    ∃ m, Mnemonic.from_entropy shaZero wl2048 (List.replicate 16 0) = some m ∧
      Mnemonic.check shaZero wl2048 m = some true :=
  ⟨⟨List.nodup_range 2048, by simp [wl2048], by decide, by decide, by decide⟩,
    claim_C1 shaZero wl2048 (List.replicate 16 0) (List.nodup_range 2048)
      (by simp [wl2048]) (Or.inl (by decide)) (by decide) (by decide)⟩

/-- C8: `from_entropy` fails (`InvalidEntropyLength`, a failed assert) for
every entropy byte string whose length is not 16, 20, 24, 28 or 32; for a
valid length and a 2048-entry word list it returns a mnemonic of exactly
`(ENT + ENT/32)/11` words, each the word-list entry at the corresponding
11-bit index (`ENT = 8 * len(entropy)`). -/
theorem claim_C8 {W : Type} (sha256 : List Nat → List Nat) (wl : List W) :
    (∀ ent : List Nat, ent.length ≠ 16 → ent.length ≠ 20 → ent.length ≠ 24 →
      ent.length ≠ 28 → ent.length ≠ 32 →
      Mnemonic.from_entropy sha256 wl ent = none) ∧
    (∀ ent : List Nat,
      (ent.length = 16 ∨ ent.length = 20 ∨ ent.length = 24 ∨
        ent.length = 28 ∨ ent.length = 32) →
      (sha256 ent).length = 32 → wl.length = 2048 →
      ∃ m, Mnemonic.from_entropy sha256 wl ent = some m ∧
        m.length = (8 * ent.length + 8 * ent.length / 32) / 11 ∧
        List.Forall₂ (fun x w => wl[x]? = some w) (mnemonicIndices sha256 ent) m) := by
  constructor
  · intro ent h16 h20 h24 h28 h32
    have hc : ¬(ent.length % 4 = 0 ∧ 16 ≤ ent.length ∧ ent.length ≤ 32) := by omega
    unfold Mnemonic.from_entropy
    rw [if_neg hc]
  · intro ent hL hsha hwl
    obtain ⟨m, hm, hF⟩ := from_entropy_eq_some sha256 wl ent hwl hL hsha
    obtain ⟨hilen, -⟩ := mnemonicIndices_spec sha256 ent hL hsha
    refine ⟨m, hm, ?_, hF⟩
    rw [← hF.length_eq, hilen]
    rcases hL with h | h | h | h | h <;> rw [h]

theorem claim_C8_witness :
    ((List.replicate 10 (0 : Nat)).length ≠ 16 ∧
      Mnemonic.from_entropy shaZero wl2048 (List.replicate 10 0) = none) ∧
    ((shaZero (List.replicate 16 (0 : Nat))).length = 32 ∧ wl2048.length = 2048 ∧
      ∃ m, Mnemonic.from_entropy shaZero wl2048 (List.replicate 16 0) = some m ∧
        m.length = (8 * (List.replicate 16 (0 : Nat)).length +
          8 * (List.replicate 16 (0 : Nat)).length / 32) / 11 ∧
        List.Forall₂ (fun x w => wl2048[x]? = some w)
          (mnemonicIndices shaZero (List.replicate 16 0)) m) :=
  ⟨⟨by decide, (claim_C8 shaZero wl2048).1 (List.replicate 10 0) (by decide)
      (by decide) (by decide) (by decide) (by decide)⟩,
    ⟨by decide, by simp [wl2048],
      (claim_C8 shaZero wl2048).2 (List.replicate 16 0) (Or.inl (by decide))
        (by decide) (by simp [wl2048])⟩⟩

/-- C9 counterexample: `Mnemonic.__new__` performs no validation on the
direct tuple-construction path, so a one-word sequence (even one whose word
is drawn from the list) is a constructible Mnemonic whose length is not a
positive multiple of 3, refuting the claimed invariant for all construction
paths. -/
theorem claim_C9_counterexample :
    ¬ MnemonicInvariant wl2048 (Mnemonic.ofWords [5]) := by
  intro h
  obtain ⟨-, h3, -⟩ := h
  simp [Mnemonic.ofWords] at h3

/-- C9 amended: direct construction (`Mnemonic.__new__` with a tuple, or
`from_string`) performs no validation and can produce values violating the
invariant; the mnemonics produced by `from_entropy` (valid entropy length,
32-byte SHA-256 digest), and hence by the random-generation constructor
branches that delegate to it, do satisfy it: an ordered word sequence whose
length is a positive multiple of 3, every word drawn from the word list. -/
theorem claim_C9 {W : Type} (sha256 : List Nat → List Nat) (wl : List W)
    (ent : List Nat) (m : List W)
    (hL : ent.length = 16 ∨ ent.length = 20 ∨ ent.length = 24 ∨
      ent.length = 28 ∨ ent.length = 32)
    (hsha : (sha256 ent).length = 32)
    (hm : Mnemonic.from_entropy sha256 wl ent = some m) :
    MnemonicInvariant wl m := by
  have hc : ent.length % 4 = 0 ∧ 16 ≤ ent.length ∧ ent.length ≤ 32 := by
    rcases hL with h | h | h | h | h <;> rw [h] <;> omega
  unfold Mnemonic.from_entropy at hm
  rw [if_pos hc] at hm
  have hF := forall₂_of_mapOrNone _ _ _ hm
  obtain ⟨hilen, -⟩ := mnemonicIndices_spec sha256 ent hL hsha
  have hmlen : m.length = 3 * ent.length / 4 := by rw [← hF.length_eq, hilen]
  refine ⟨?_, ?_, mem_of_forall₂_getElem wl _ m hF⟩
  · rw [hmlen]
    rcases hL with h | h | h | h | h <;> rw [h] <;> omega
  · rw [hmlen]
    rcases hL with h | h | h | h | h <;> rw [h]

set_option maxRecDepth 10000 in
theorem claim_C9_witness :
    ((List.replicate 16 (0 : Nat)).length = 16 ∧
      (shaZero (List.replicate 16 0)).length = 32 ∧
      Mnemonic.from_entropy shaZero ([0] : List Nat) (List.replicate 16 0) =
        some (List.replicate 12 0)) ∧
    MnemonicInvariant ([0] : List Nat) (List.replicate 12 0) :=
  ⟨⟨by decide, by decide, by decide⟩,
    claim_C9 shaZero [0] (List.replicate 16 0) (List.replicate 12 0)
      (Or.inl (by decide)) (by decide) (by decide)⟩

/-- C10: `check` applied to the empty mnemonic returns `True`: the length
test `0 % 3 == 0` passes, the empty word sequence yields empty payload and
checksum bit lists, and the recomputed checksum prefix of length 0
trivially equals the extracted empty checksum, even though zero words
encode no entropy. -/
theorem claim_C10 {W : Type} [DecidableEq W] (sha256 : List Nat → List Nat)
    (wl : List W) : Mnemonic.check sha256 wl ([] : List W) = some true := rfl

theorem parse78_fields (v : List Nat) (x : Nat) (f ix c kd : List Nat)
    (hv : v.length = 4) (hf : f.length = 4) (hix : ix.length = 4)
    (hc : c.length = 32) (hkd : kd.length = 33) :
    (v ++ [x] ++ f ++ ix ++ c ++ kd).length = 78 ∧
    pySliceFrom (v ++ [x] ++ f ++ ix ++ c ++ kd) (-33) = kd ∧
    pySlice (v ++ [x] ++ f ++ ix ++ c ++ kd) (-65) (-33) = c ∧
    pySlice (v ++ [x] ++ f ++ ix ++ c ++ kd) 5 9 = f ∧
    pySlice (v ++ [x] ++ f ++ ix ++ c ++ kd) 9 13 = ix ∧
    (v ++ [x] ++ f ++ ix ++ c ++ kd).getD 4 0 = x ∧
    (v ++ [x] ++ f ++ ix ++ c ++ kd).take 4 = v := by
  have h45 : (v ++ [x] ++ f ++ ix ++ c).length = 45 := by
    simp only [List.length_append, List.length_cons, List.length_nil, hv, hf, hix, hc]
  have h13 : (v ++ [x] ++ f ++ ix).length = 13 := by
    simp only [List.length_append, List.length_cons, List.length_nil, hv, hf, hix]
  have h9 : (v ++ [x] ++ f).length = 9 := by
    simp only [List.length_append, List.length_cons, List.length_nil, hv, hf]
  have h5 : (v ++ [x]).length = 5 := by
    simp only [List.length_append, List.length_cons, List.length_nil, hv]
  have hlen : (v ++ [x] ++ f ++ ix ++ c ++ kd).length = 78 := by
    simp only [List.length_append, List.length_cons, List.length_nil,
      hv, hf, hix, hc, hkd]
  refine ⟨hlen, ?_, ?_, ?_, ?_, ?_, ?_⟩
  · unfold pySliceFrom
    rw [hlen]
    have hi45 : sliceIdx 78 (-33) = 45 := by decide
    rw [hi45]
    exact List.drop_left' h45
  · unfold pySlice
    rw [hlen]
    have hi45 : sliceIdx 78 (-33) = 45 := by decide
    have hi13 : sliceIdx 78 (-65) = 13 := by decide
    rw [hi45, hi13, List.take_left' h45]
    exact List.drop_left' h13
  · unfold pySlice
    rw [hlen]
    have hi9 : sliceIdx 78 (9 : Int) = 9 := by decide
    have hi5 : sliceIdx 78 (5 : Int) = 5 := by decide
    rw [hi9, hi5]
    have hassoc : v ++ [x] ++ f ++ ix ++ c ++ kd =
        (v ++ [x] ++ f) ++ (ix ++ (c ++ kd)) := by
      simp [List.append_assoc]
    rw [hassoc, List.take_left' h9]
    exact List.drop_left' h5
  · unfold pySlice
    rw [hlen]
    have hi13 : sliceIdx 78 (13 : Int) = 13 := by decide
    have hi9 : sliceIdx 78 (9 : Int) = 9 := by decide
    rw [hi13, hi9]
    have hassoc : v ++ [x] ++ f ++ ix ++ c ++ kd =
        (v ++ [x] ++ f ++ ix) ++ (c ++ kd) := by
      simp [List.append_assoc]
    rw [hassoc, List.take_left' h13]
    exact List.drop_left' h9
  · rw [List.getD_eq_getElem?_getD]
    have hassoc : v ++ [x] ++ f ++ ix ++ c ++ kd =
        (v ++ [x]) ++ (f ++ (ix ++ (c ++ kd))) := by
      simp [List.append_assoc]
    rw [hassoc, List.getElem?_append_left (by rw [h5]; omega)]
    rw [List.getElem?_append_right (by rw [hv])]
    rw [hv]
    rfl
  · have hassoc : v ++ [x] ++ f ++ ix ++ c ++ kd =
        v ++ ([x] ++ (f ++ (ix ++ (c ++ kd)))) := by
      simp [List.append_assoc]
    rw [hassoc]
    exact List.take_left' hv

/-- C3: for every private extended key node and every non-hardened index,
deriving the child privately and then reducing to public equals reducing to
public first and then deriving publicly, in every field (key material,
chain code, depth, parent fingerprint, child index): both sides feed the
same HMAC input, and `((IL + k) mod N)·G = IL·G + k·G` holds in the
order-`N` cyclic group. -/
theorem claim_C3 (hm : List Nat → List Nat → List Nat) (pb : Pt → List Nat)
    (h160 : List Nat → List Nat) (n : PrivNode) (i : Nat)
    (hi : i < 0x80000000) :
    PubNode.ckd hm pb h160 n.to_pub i =
      Except.ok (PrivNode.ckd hm pb h160 n i).to_pub := by
  have h' : ¬(0x80000000 ≤ i) := by omega
  simp only [PubNode.ckd, XPubKey.ckd, PrivNode.ckd, XPrivKey.ckd,
    PrivNode.to_pub, if_neg h']
  rw [ZMod.natCast_mod, Nat.cast_add]

theorem claim_C3_witness :
    (17 : Nat) < 0x80000000 ∧
      PubNode.ckd hmacFF pbConst h160Const
          (PrivNode.to_pub ⟨123, [5, 5], 2, [1, 1, 1, 1], 9⟩) 17 =
        Except.ok (PrivNode.ckd hmacFF pbConst h160Const
          ⟨123, [5, 5], 2, [1, 1, 1, 1], 9⟩ 17).to_pub :=
  ⟨by decide, claim_C3 hmacFF pbConst h160Const ⟨123, [5, 5], 2, [1, 1, 1, 1], 9⟩
    17 (by decide)⟩

/-- C5: for every public-only extended key node and every hardened index
(`i ≥ 0x80000000`), child derivation fails on the assert
(`HardenedDerivationFromPublicKey`) and produces no node. -/
theorem claim_C5 (hm : List Nat → List Nat → List Nat) (pb : Pt → List Nat)
    (h160 : List Nat → List Nat) (n : PubNode) (i : Nat)
    (hi : 0x80000000 ≤ i) :
    PubNode.ckd hm pb h160 n i =
      Except.error DerivError.hardenedDerivationFromPublicKey := by
  simp only [PubNode.ckd, XPubKey.ckd, if_pos hi]

theorem claim_C5_witness :
    (0x80000000 : Nat) ≤ 0x80000000 ∧
      PubNode.ckd hmacFF pbConst h160Const ⟨(0 : Pt), [], 0, [], 0⟩ 0x80000000 =
        Except.error DerivError.hardenedDerivationFromPublicKey :=
  ⟨by decide, claim_C5 hmacFF pbConst h160Const ⟨(0 : Pt), [], 0, [], 0⟩
    0x80000000 (by decide)⟩

/-- C7: master generation computes `I = HMAC-SHA512("Bitcoin seed", seed)`;
it fails (`InvalidSeed`) exactly when the big-endian integer of the first
32 bytes is 0 or at least the curve order `N`, and otherwise returns a node
whose private material is that integer, chain code the last 32 bytes of
`I`, depth 0, parent fingerprint `0x00000000` and child index 0. -/
theorem claim_C7 (hm : List Nat → List Nat → List Nat) (seed : List Nat)
    (hlen : (hm bitcoinSeedKey seed).length = 64) :
    (PrivNode.from_entropy hm seed = none ↔
      (valBE 256 ((hm bitcoinSeedKey seed).take 32) = 0 ∨
        secpN ≤ valBE 256 ((hm bitcoinSeedKey seed).take 32))) ∧
    ((valBE 256 ((hm bitcoinSeedKey seed).take 32) ≠ 0 ∧
        valBE 256 ((hm bitcoinSeedKey seed).take 32) < secpN) →
      PrivNode.from_entropy hm seed = some
        ⟨valBE 256 ((hm bitcoinSeedKey seed).take 32),
          pySliceFrom (hm bitcoinSeedKey seed) (-32), 0,
          List.replicate 4 0, 0⟩) := by
  have hslice : pySliceFrom (hm bitcoinSeedKey seed) (-32) =
      (hm bitcoinSeedKey seed).drop 32 := by
    unfold pySliceFrom
    rw [hlen]
    have h32 : sliceIdx 64 (-32) = 32 := by decide
    rw [h32]
  simp only [PrivNode.from_entropy]
  constructor
  · constructor
    · intro h
      by_cases hk : (valBE 256 ((hm bitcoinSeedKey seed).take 32) ≠ 0 ∧
          valBE 256 ((hm bitcoinSeedKey seed).take 32) < secpN)
      · rw [if_pos hk] at h
        exact absurd h (by simp)
      · omega
    · intro h
      rw [if_neg (by omega)]
  · intro hk
    rw [if_pos hk, hslice]

theorem claim_C7_witness :
    (hmacOnes bitcoinSeedKey []).length = 64 ∧
    ((PrivNode.from_entropy hmacOnes [] = none ↔
      (valBE 256 ((hmacOnes bitcoinSeedKey []).take 32) = 0 ∨
        secpN ≤ valBE 256 ((hmacOnes bitcoinSeedKey []).take 32))) ∧
    ((valBE 256 ((hmacOnes bitcoinSeedKey []).take 32) ≠ 0 ∧
        valBE 256 ((hmacOnes bitcoinSeedKey []).take 32) < secpN) →
      PrivNode.from_entropy hmacOnes [] = some
        ⟨valBE 256 ((hmacOnes bitcoinSeedKey []).take 32),
          pySliceFrom (hmacOnes bitcoinSeedKey []) (-32), 0,
          List.replicate 4 0, 0⟩)) :=
  ⟨by decide, claim_C7 hmacOnes [] (by decide)⟩

/-- C4 counterexample: with an HMAC collaborator returning 64 `0xFF` bytes
the left half `IL` reads back as `2^256 - 1`, which is at least the curve
order `N`; yet `XPrivKey.ckd` (parent scalar 1, chain code `[]`, hardened
index `0x80000000`) raises nothing and returns the degenerate
scalar/chain-code pair, refuting the claimed `InvalidDerivation` failure. -/
theorem claim_C4_counterexample :
    secpN ≤ valBE 256 ((hmacFF []
        (XPrivKey.keydat 1 ++ digitsBE 256 4 0x80000000)).take 32) ∧
      XPrivKey.ckd hmacFF pbConst 1 [] 0x80000000 =
        ((valBE 256 (List.replicate 32 255) + 1) % secpN,
          List.replicate 32 255) := by
  constructor
  · decide
  · decide

/-- C4 amended: `XPrivKey.ckd` performs no `InvalidDerivation` check at
all: precisely in the cases the claim singles out — `IL` (as a big-endian
integer) at least the curve order `N`, or derived child scalar
`(IL + k) mod N` equal to 0 — it still returns the pair of that scalar and
the right half `IR`, rather than failing (the design document's §9 itself
records that the observed behavior produces a degenerate node instead of
failing or retrying). -/
theorem claim_C4 (hm : List Nat → List Nat → List Nat) (pb : Pt → List Nat)
    (k : Nat) (c : List Nat) (i : Nat)
    (hdeg : secpN ≤ valBE 256 ((XPrivKey.ckdI hm pb k c i).take 32) ∨
      (valBE 256 ((XPrivKey.ckdI hm pb k c i).take 32) + k) % secpN = 0) :
    XPrivKey.ckd hm pb k c i =
      ((valBE 256 ((XPrivKey.ckdI hm pb k c i).take 32) + k) % secpN,
        pySliceFrom (XPrivKey.ckdI hm pb k c i) (-32)) := rfl

theorem claim_C4_witness :
    (secpN ≤ valBE 256 ((XPrivKey.ckdI hmacFF pbConst 1 [] 0x80000000).take 32) ∨
      (valBE 256 ((XPrivKey.ckdI hmacFF pbConst 1 [] 0x80000000).take 32) + 1) % secpN = 0) ∧
      XPrivKey.ckd hmacFF pbConst 1 [] 0x80000000 =
        ((valBE 256 ((XPrivKey.ckdI hmacFF pbConst 1 [] 0x80000000).take 32) + 1) % secpN,
          pySliceFrom (XPrivKey.ckdI hmacFF pbConst 1 [] 0x80000000) (-32)) :=
  ⟨Or.inl (by decide), claim_C4 hmacFF pbConst 1 [] 0x80000000 (Or.inl (by decide))⟩

/-- C6 amended: `node_from_str` performs no length validation on the
decoded bytes — there is no `InvalidSerialization` failure in the code, and
a 42-byte input with the private version prefix even parses into a
(malformed) node, see the counterexample — and for an input of length at
least 5 whose 4-byte version prefix matches neither known constant the
function falls through and returns `None`: no node, but a plain `None`
return rather than an `UnknownVersion` failure.  (Inputs shorter than 5
bytes raise `IndexError` at `b[4]` before the version dispatch.) -/
theorem claim_C6 (pfb : List Nat → Option Pt) (b : List Nat)
    (h5 : 5 ≤ b.length) (hpriv : b.take 4 ≠ privVbytes)
    (hpub : b.take 4 ≠ pubVbytes) :
    node_from_bytes pfb b = ParseResult.noneReturned := by
  simp only [node_from_bytes]
  rw [if_neg (by omega), if_neg hpriv, if_neg hpub]

theorem claim_C6_witness :
    (5 ≤ ([9, 9, 9, 9, 9] : List Nat).length ∧
      ([9, 9, 9, 9, 9] : List Nat).take 4 ≠ privVbytes ∧
      ([9, 9, 9, 9, 9] : List Nat).take 4 ≠ pubVbytes) ∧
      node_from_bytes pfbNone [9, 9, 9, 9, 9] = ParseResult.noneReturned :=
  ⟨⟨by decide, by decide, by decide⟩,
    claim_C6 pfbNone [9, 9, 9, 9, 9] (by decide) (by decide) (by decide)⟩

/-- C6 counterexample: a decoded byte string of length 42 (not 78) with the
private version prefix is not rejected — `node_from_str` has no length
check and returns a node built from clamped slices, refuting the claimed
`InvalidSerialization` failure for non-78-byte inputs. -/
theorem claim_C6_counterexample :
    bytes42.length ≠ 78 ∧
      node_from_bytes pfbNone bytes42 =
        ParseResult.privNode
          ⟨9 * 256 ^ 29, [4, 136, 173, 228, 7, 1, 2, 3, 4], 7, [1, 2, 3, 4], 9⟩ := by
  constructor
  · decide
  · decide

/-- C2: parsing the serialized text form of an extended key node (the
base-58-check text codec is an external encoder/decoder pair that the
design document delegates, so the composition is modelled on the 78-byte
payload it transports) reproduces a node with identical key material,
chain code, depth, parent fingerprint and child index — for private nodes
whose scalar fits 32 bytes and public nodes whose compressed-point codec
round-trips, under the representation invariants (depth below 256, 4-byte
fingerprint, 32-byte chain code, 32-bit index). -/
theorem claim_C2 (pb : Pt → List Nat) (pfb : List Nat → Option Pt) :
    (∀ n : PrivNode, n.parent_fingerprint.length = 4 → n.c.length = 32 →
      n.depth < 256 → n.index < 2 ^ 32 → n.k < 2 ^ 256 →
      node_from_bytes pfb n.toBytes = ParseResult.privNode n) ∧
    (∀ n : PubNode, n.parent_fingerprint.length = 4 → n.c.length = 32 →
      n.depth < 256 → n.index < 2 ^ 32 → (pb n.K).length = 33 →
      pfb (pb n.K) = some n.K →
      node_from_bytes pfb (n.toBytes pb) = ParseResult.pubNode n) := by
  have h256 : (256 : Nat) ^ 32 = 2 ^ 256 := by norm_num
  have h2564 : (256 : Nat) ^ 4 = 2 ^ 32 := by norm_num
  constructor
  · intro n hf hc hdepth hix hk
    have hd1 : digitsBE 256 1 n.depth = [n.depth] := by
      show [n.depth / 256 ^ 0 % 256] = [n.depth]
      rw [pow_zero, Nat.div_one, Nat.mod_eq_of_lt hdepth]
    have hixlen : (digitsBE 256 4 n.index).length = 4 := digitsBE_length 256 4 n.index
    have hkdlen : (XPrivKey.keydat n.k).length = 33 := by
      simp [XPrivKey.keydat, digitsBE_length]
    have hbytes : n.toBytes = privVbytes ++ [n.depth] ++ n.parent_fingerprint ++
        digitsBE 256 4 n.index ++ n.c ++ XPrivKey.keydat n.k := by
      unfold PrivNode.toBytes
      rw [hd1]
    obtain ⟨hlen, hkb, hcs, hfs, hixs, hgd, ht4⟩ :=
      parse78_fields privVbytes n.depth n.parent_fingerprint
        (digitsBE 256 4 n.index) n.c (XPrivKey.keydat n.k) rfl hf hixlen hc hkdlen
    rw [hbytes]
    simp only [node_from_bytes]
    rw [hkb, hcs, hfs, hixs, hgd]
    rw [if_neg (show ¬(privVbytes ++ [n.depth] ++ n.parent_fingerprint ++
        digitsBE 256 4 n.index ++ n.c ++ XPrivKey.keydat n.k).length < 5 by
      rw [hlen]; omega)]
    rw [if_pos ht4]
    rw [if_neg (show ¬((XPrivKey.keydat n.k).getD 0 1 ≠ 0) by
      simp [XPrivKey.keydat])]
    have hval : valBE 256 (XPrivKey.keydat n.k) = n.k := by
      unfold XPrivKey.keydat
      rw [valBE_cons, digitsBE_length, valBE_digitsBE 256 32 n.k (by omega),
        h256, Nat.mod_eq_of_lt hk]
      omega
    have hvix : valBE 256 (digitsBE 256 4 n.index) = n.index := by
      rw [valBE_digitsBE 256 4 n.index (by omega), h2564, Nat.mod_eq_of_lt hix]
    rw [hval, hvix]
  · intro n hf hc hdepth hix hpblen hpfb
    have hd1 : digitsBE 256 1 n.depth = [n.depth] := by
      show [n.depth / 256 ^ 0 % 256] = [n.depth]
      rw [pow_zero, Nat.div_one, Nat.mod_eq_of_lt hdepth]
    have hixlen : (digitsBE 256 4 n.index).length = 4 := digitsBE_length 256 4 n.index
    have hbytes : n.toBytes pb = pubVbytes ++ [n.depth] ++ n.parent_fingerprint ++
        digitsBE 256 4 n.index ++ n.c ++ pb n.K := by
      unfold PubNode.toBytes
      rw [hd1]
    obtain ⟨hlen, hkb, hcs, hfs, hixs, hgd, ht4⟩ :=
      parse78_fields pubVbytes n.depth n.parent_fingerprint
        (digitsBE 256 4 n.index) n.c (pb n.K) rfl hf hixlen hc hpblen
    rw [hbytes]
    simp only [node_from_bytes]
    rw [hkb, hcs, hfs, hixs, hgd]
    rw [if_neg (show ¬(pubVbytes ++ [n.depth] ++ n.parent_fingerprint ++
        digitsBE 256 4 n.index ++ n.c ++ pb n.K).length < 5 by
      rw [hlen]; omega)]
    rw [if_neg (show ¬((pubVbytes ++ [n.depth] ++ n.parent_fingerprint ++
        digitsBE 256 4 n.index ++ n.c ++ pb n.K).take 4 = privVbytes) by
      rw [ht4]; decide)]
    rw [if_pos ht4]
    have hvix : valBE 256 (digitsBE 256 4 n.index) = n.index := by
      rw [valBE_digitsBE 256 4 n.index (by omega), h2564, Nat.mod_eq_of_lt hix]
    rw [hvix, hpfb]

theorem claim_C2_witness :
    ((([1, 1, 1, 1] : List Nat).length = 4 ∧ (List.replicate 32 (0 : Nat)).length = 32 ∧
      (3 : Nat) < 256 ∧ (77 : Nat) < 2 ^ 32 ∧ (123456789 : Nat) < 2 ^ 256) ∧
      node_from_bytes pfbConst
          (PrivNode.toBytes ⟨123456789, List.replicate 32 0, 3, [1, 1, 1, 1], 77⟩) =
        ParseResult.privNode ⟨123456789, List.replicate 32 0, 3, [1, 1, 1, 1], 77⟩) ∧
    ((pbConst (5 : Pt)).length = 33 ∧ pfbConst (pbConst (5 : Pt)) = some (5 : Pt) ∧
      node_from_bytes pfbConst
          (PubNode.toBytes pbConst ⟨(5 : Pt), List.replicate 32 0, 3, [1, 1, 1, 1], 77⟩) =
        ParseResult.pubNode ⟨(5 : Pt), List.replicate 32 0, 3, [1, 1, 1, 1], 77⟩) :=
  ⟨⟨⟨by decide, by decide, by decide, by decide, by decide⟩,
    (claim_C2 pbConst pfbConst).1 ⟨123456789, List.replicate 32 0, 3, [1, 1, 1, 1], 77⟩
      (by decide) (by decide) (by decide) (by decide) (by decide)⟩,
   ⟨by decide, rfl,
    (claim_C2 pbConst pfbConst).2 ⟨(5 : Pt), List.replicate 32 0, 3, [1, 1, 1, 1], 77⟩
      (by decide) (by decide) (by decide) (by decide) (by decide) rfl⟩⟩
